import Mathlib

/-!
Verification development for the preference-memory engine of the
iNAGO-capstone repository (`user_profile.py`).

Python dictionaries are insertion-ordered, so `UserMemory` and
`AspectMemory` are embedded as association lists over `String` keys.
Float arithmetic on confidences is embedded over `ℚ` (the decimal
literals of the source are exact rationals).  Timestamps are opaque
naturals supplied by the caller (`now`).  A Python `KeyError` raised
mid-loop is embedded as `Except.error` carrying the memory state at the
moment the exception escapes, since the mutations made before the raise
persist in `self.memory`.
-/

/-- One memory entry: `{"confidence": ..., "evidence": ..., "last_seen": ...}`. -/
structure Entry where
  confidence : ℚ
  evidence : ℕ
  last_seen : ℕ
deriving DecidableEq, Repr

/-- The value mapping of one aspect (Python inner dict, insertion ordered). -/
abbrev AspectMem := List (String × Entry)

/-- `UserProfile.memory` (Python outer dict, insertion ordered). -/
abbrev Memory := List (String × AspectMem)

/-- `STRENGTH_TO_CONF`-shaped configuration: strength label to confidence. -/
abbrev StrengthMap := List (String × ℚ)

/-- First-occurrence lookup in an association list (Python `d[k]` / `k in d`). -/
def alookup {α : Type} : List (String × α) → String → Option α
  | [], _ => none
  | (k, v) :: t, key => if k = key then some v else alookup t key

/-- Python `d[k] = v`: replace the first binding of `k` in place, else append. -/
def aset {α : Type} : List (String × α) → String → α → List (String × α)
  | [], key, val => [(key, val)]
  | (k, v) :: t, key, val =>
      if k = key then (key, val) :: t else (k, v) :: aset t key val

/-- Python `del d[k]`: drop the first binding of `k`. -/
def aerase {α : Type} : List (String × α) → String → List (String × α)
  | [], _ => []
  | (k, v) :: t, key => if k = key then t else (k, v) :: aerase t key

/-- Python `d.setdefault(k, d0)`: append a binding only when `k` is absent. -/
def asetdefault {α : Type} (l : List (String × α)) (k : String) (d : α) :
    List (String × α) :=
  if (alookup l k).isSome then l else l ++ [(k, d)]

/-- The key sequence of an association list (Python `d.keys()`). -/
def keysOf {α : Type} (l : List (String × α)) : List String :=
  l.map Prod.fst

/-- Modelled from the spec: `ASPECTS` (AspectVocabulary) lives in
`config/aspects.py`, which is not part of the sources at hand; the spec
describes it as a fixed ordered set of valid aspect identifiers
(e.g. cuisine, price, dietary). -/
def ASPECTS : List String := ["cuisine", "price", "dietary"]

/-- Modelled from the spec: `STRENGTH_TO_CONF` (StrengthConfidenceMap) lives
in `config/confidence.py`, which is not part of the sources at hand; the
spec describes it as `{weak: <low float>, medium: <mid float>, strong: <high
float>}`, with `CONF_STRONG = 0.9` and 0.6 as the mid/default value in its
scenarios. -/
def STRENGTH_TO_CONF : StrengthMap := [("weak", 0.3), ("medium", 0.6), ("strong", 0.9)]

/-- ASCII lower-casing of one character, `str.lower()` restricted to the
ASCII identifiers the preference engine handles. -/
def lowerChar (c : Char) : Char :=
  if 'A' ≤ c ∧ c ≤ 'Z' then Char.ofNat (c.toNat + 32) else c

/-- Python `s.lower()` on ASCII strings (structural recursion over the
character data, so concrete calls evaluate). -/
def pyLower (s : String) : String :=
  ⟨s.data.map lowerChar⟩

/-- One action record handed to `apply_actions`; `none` is an absent key
(Python `act.get(...)` returning `None`). -/
structure ActionRec where
  action : Option String
  aspect : Option String
  value : Option String
  target : Option String
  strength : Option String
deriving DecidableEq, Repr

/-- Python falsiness of `act.get(k)` for string fields: `None` or `""`. -/
def falsy : Option String → Bool
  | none => true
  | some s => s = ""

/-- Python `m.get(k, d)` over a strength map. -/
def smapGet (m : StrengthMap) (k : String) (d : ℚ) : ℚ :=
  (alookup m k).getD d

/-- Line 49 of `user_profile.py`:
`STRENGTH_TO_CONF.get(act.get("strength", "medium"), 0.6)`. -/
def resolveStrength (conf : StrengthMap) (act : ActionRec) : ℚ :=
  smapGet conf (act.strength.getD "medium") 0.6

/-- `max(0.05, c * 0.6)`, the confidence update of the `weaken` branch. -/
def weakenConf (c : ℚ) : ℚ :=
  max 0.05 (c * 0.6)

/-- The confidence after `n` repeated weaken actions on a present entry. -/
def weakenIter : ℕ → ℚ → ℚ
  | 0, c => c
  | n + 1, c => weakenConf (weakenIter n c)

/-- The body of the `for act in actions` loop of `UserProfile.apply_actions`.
`Except.error m` embeds a `KeyError` escaping with memory state `m` (raised on
the final `last_seen` write of a merge whose `del` removed the target). -/
def apply_action (aspects : List String) (conf : StrengthMap) (now : ℕ)
    (mem : Memory) (act : ActionRec) : Except Memory Memory :=
  if falsy act.action || falsy act.aspect || falsy act.value then .ok mem else
  let action := act.action.getD ""
  let aspect := act.aspect.getD ""
  if aspect ∉ aspects then .ok mem else
  let value := pyLower (act.value.getD "")
  let strength := resolveStrength conf act
  let mem1 := asetdefault mem aspect []
  let bucket := (alookup mem1 aspect).getD []
  if action = "add" ∧ alookup bucket value = none then
    .ok (aset mem1 aspect (aset bucket value ⟨strength, 1, now⟩))
  else if action = "reinforce" ∧ (alookup bucket value).isSome then
    match alookup bucket value with
    | some e => .ok (aset mem1 aspect (aset bucket value
        ⟨(e.confidence * e.evidence + strength) / (e.evidence + 1),
         e.evidence + 1, now⟩))
    | none => .ok mem1
  else if action = "weaken" ∧ (alookup bucket value).isSome then
    match alookup bucket value with
    | some e => .ok (aset mem1 aspect (aset bucket value
        ⟨weakenConf e.confidence, e.evidence, now⟩))
    | none => .ok mem1
  else if action = "merge" then
    if falsy act.target then .ok mem1 else
    let target := pyLower (act.target.getD "")
    match alookup bucket target with
    | none => .ok mem1
    | some tE =>
      match alookup bucket value with
      | none => .ok (aset mem1 aspect (aset bucket target { tE with last_seen := now }))
      | some vE =>
        let b1 := aset bucket target { tE with confidence := max tE.confidence vE.confidence }
        let t1 := (alookup b1 target).getD tE
        let v1 := (alookup b1 value).getD vE
        let b2 := aset b1 target { t1 with evidence := t1.evidence + v1.evidence }
        let b3 := aerase b2 value
        match alookup b3 target with
        | some t2 => .ok (aset mem1 aspect (aset b3 target { t2 with last_seen := now }))
        | none => .error (aset mem1 aspect b3)
  else .ok mem1

/-- `UserProfile.apply_actions`: fold the loop body over the action list;
an escaping exception aborts the remaining iterations. -/
def apply_actions (aspects : List String) (conf : StrengthMap) (now : ℕ) :
    Memory → List ActionRec → Except Memory Memory
  | mem, [] => .ok mem
  | mem, act :: rest =>
    match apply_action aspects conf now mem act with
    | .ok m2 => apply_actions aspects conf now m2 rest
    | .error m2 => .error m2

/-- One item of an extraction payload; the ingestion path reads all three
keys unconditionally, so they are total fields. -/
structure PrefItem where
  aspect : String
  value : String
  strength : String
deriving DecidableEq, Repr

/-- The extraction payload `{hard_preferences, soft_preferences}`. -/
structure Extracted where
  hard_preferences : List PrefItem
  soft_preferences : List PrefItem
deriving DecidableEq, Repr

/-- The body of the inner loop of `ingest_extracted_preferences`:
`self.memory.setdefault(aspect, {})` runs before `STRENGTH_TO_CONF[strength]`
is evaluated, so a `KeyError` on an unknown label escapes after the bucket
was created. -/
def ingestOne (conf : StrengthMap) (now : ℕ) (mem : Memory) (p : PrefItem) :
    Except Memory Memory :=
  let aspect := p.aspect
  let value := pyLower p.value
  let mem1 := asetdefault mem aspect []
  match alookup conf p.strength with
  | none => .error mem1
  | some c =>
      .ok (aset mem1 aspect (aset ((alookup mem1 aspect).getD []) value ⟨c, 1, now⟩))

/-- Fold `ingestOne` over one preference group. -/
def ingestList (conf : StrengthMap) (now : ℕ) :
    Memory → List PrefItem → Except Memory Memory
  | mem, [] => .ok mem
  | mem, p :: rest =>
    match ingestOne conf now mem p with
    | .ok m2 => ingestList conf now m2 rest
    | .error m2 => .error m2

/-- `UserProfile.ingest_extracted_preferences`: the `hard_preferences` group
is processed before `soft_preferences`. -/
def ingest_extracted_preferences (conf : StrengthMap) (now : ℕ) (mem : Memory)
    (e : Extracted) : Except Memory Memory :=
  match ingestList conf now mem e.hard_preferences with
  | .ok m2 => ingestList conf now m2 e.soft_preferences
  | .error m2 => .error m2

/-- `UserProfile.has_memory`: `self.memory != {}`. -/
def has_memory (mem : Memory) : Bool :=
  !mem.isEmpty

/-- `UserProfile.get_memory_view`: aspects with a non-empty value mapping,
each with its ordered value-key list. -/
def get_memory_view (mem : Memory) : List (String × List String) :=
  (mem.filter (fun p => !p.2.isEmpty)).map (fun p => (p.1, keysOf p.2))

/-- Lookup of the entry of `(aspect, value)` in a memory. -/
def mlookup (mem : Memory) (a v : String) : Option Entry :=
  alookup ((alookup mem a).getD []) v

/-- The memory state an `apply_actions`/ingestion call leaves behind, whether
it returned normally or raised. -/
def resultMem : Except Memory Memory → Memory
  | .ok m => m
  | .error m => m

/-- The key structure of a memory: aspect keys in order, each with its value
keys in order. -/
def shape (mem : Memory) : List (String × List String) :=
  mem.map (fun p => (p.1, keysOf p.2))

/-- All items of a payload, in processing order. -/
def itemsOf (e : Extracted) : List PrefItem :=
  e.hard_preferences ++ e.soft_preferences

/-- Well-formedness inherited from Python dicts: no duplicate value keys
inside any aspect bucket. -/
def WfMem (mem : Memory) : Prop :=
  ∀ p ∈ mem, (keysOf p.2).Nodup

/-- The strength label of the last payload item writing `(a, v)`. -/
def lastWrite : List PrefItem → String → String → Option String
  | [], _, _ => none
  | i :: rest, a, v =>
    match lastWrite rest a v with
    | some s => some s
    | none => if i.aspect = a ∧ pyLower i.value = v then some i.strength else none

/-! ### Decidability of result equality -/

instance {ε α : Type} [DecidableEq ε] [DecidableEq α] : DecidableEq (Except ε α) := fun x y =>
  match x, y with
  | .ok a, .ok b =>
      if h : a = b then .isTrue (by rw [h])
      else .isFalse (fun hc => h (Except.ok.inj hc))
  | .error a, .error b =>
      if h : a = b then .isTrue (by rw [h])
      else .isFalse (fun hc => h (Except.error.inj hc))
  | .ok _, .error _ => .isFalse (fun hc => Except.noConfusion hc)
  | .error _, .ok _ => .isFalse (fun hc => Except.noConfusion hc)


/-! ### Association-list lemmas -/

theorem alookup_nil {α : Type} (k : String) : alookup ([] : List (String × α)) k = none := rfl

theorem alookup_cons {α : Type} (p : String × α) (t : List (String × α)) (k : String) :
    alookup (p :: t) k = if p.1 = k then some p.2 else alookup t k := rfl

theorem aset_cons {α : Type} (p : String × α) (t : List (String × α)) (k : String) (v : α) :
    aset (p :: t) k v = if p.1 = k then (k, v) :: t else p :: aset t k v := by
  cases p
  rfl

theorem aerase_cons {α : Type} (p : String × α) (t : List (String × α)) (k : String) :
    aerase (p :: t) k = if p.1 = k then t else p :: aerase t k := by
  cases p
  rfl

theorem alookup_eq_none_iff {α : Type} (l : List (String × α)) (k : String) :
    alookup l k = none ↔ k ∉ keysOf l := by
  induction l with
  | nil => simp [alookup, keysOf]
  | cons p t ih =>
    rw [alookup_cons]
    by_cases hp : p.1 = k
    · simp [keysOf, hp]
    · simp only [if_neg hp, keysOf, List.map_cons, List.mem_cons]
      rw [show List.map Prod.fst t = keysOf t from rfl, ih]
      constructor
      · intro h hc
        rcases hc with hc | hc
        · exact hp hc.symm
        · exact h hc
      · intro h hc
        exact h (Or.inr hc)

theorem alookup_aset_self {α : Type} (l : List (String × α)) (k : String) (v : α) :
    alookup (aset l k v) k = some v := by
  induction l with
  | nil => simp [aset, alookup]
  | cons p t ih =>
    rw [aset_cons]
    by_cases hp : p.1 = k
    · rw [if_pos hp, alookup_cons, if_pos rfl]
    · rw [if_neg hp, alookup_cons, if_neg hp]
      exact ih

theorem alookup_aset_ne {α : Type} (l : List (String × α)) (k k' : String) (v : α)
    (h : k' ≠ k) : alookup (aset l k v) k' = alookup l k' := by
  induction l with
  | nil => simp [aset, alookup, Ne.symm h]
  | cons p t ih =>
    rw [aset_cons]
    by_cases hp : p.1 = k
    · rw [if_pos hp, alookup_cons, alookup_cons, if_neg (Ne.symm h), if_neg]
      rw [hp]
      exact Ne.symm h
    · rw [if_neg hp, alookup_cons, alookup_cons]
      by_cases hp' : p.1 = k'
      · rw [if_pos hp', if_pos hp']
      · rw [if_neg hp', if_neg hp']
        exact ih

theorem alookup_aerase_ne {α : Type} (l : List (String × α)) (k k' : String)
    (h : k' ≠ k) : alookup (aerase l k) k' = alookup l k' := by
  induction l with
  | nil => simp [aerase]
  | cons p t ih =>
    rw [aerase_cons]
    by_cases hp : p.1 = k
    · rw [if_pos hp, alookup_cons, if_neg]
      rw [hp]
      exact Ne.symm h
    · rw [if_neg hp, alookup_cons, alookup_cons]
      by_cases hp' : p.1 = k'
      · rw [if_pos hp', if_pos hp']
      · rw [if_neg hp', if_neg hp']
        exact ih

theorem alookup_aerase_self {α : Type} (l : List (String × α)) (k : String)
    (h : (keysOf l).Nodup) : alookup (aerase l k) k = none := by
  induction l with
  | nil => simp [aerase, alookup]
  | cons p t ih =>
    simp only [keysOf, List.map_cons, List.nodup_cons] at h
    rw [aerase_cons]
    by_cases hp : p.1 = k
    · rw [if_pos hp]
      rw [alookup_eq_none_iff]
      rw [hp] at h
      exact fun hc => h.1 hc
    · rw [if_neg hp, alookup_cons, if_neg hp]
      exact ih h.2

theorem alookup_mem {α : Type} (l : List (String × α)) (k : String) (v : α)
    (h : alookup l k = some v) : (k, v) ∈ l := by
  induction l with
  | nil => simp [alookup] at h
  | cons p t ih =>
    rw [alookup_cons] at h
    by_cases hp : p.1 = k
    · rw [if_pos hp] at h
      have : p = (k, v) := by
        cases p
        simp only [Option.some.injEq] at h
        simp_all
      rw [← this]
      exact List.mem_cons_self p t
    · rw [if_neg hp] at h
      exact List.mem_cons_of_mem _ (ih h)

theorem keysOf_aset_present {α : Type} (l : List (String × α)) (k : String) (v : α)
    (h : (alookup l k).isSome) : keysOf (aset l k v) = keysOf l := by
  induction l with
  | nil => simp [alookup] at h
  | cons p t ih =>
    rw [aset_cons]
    by_cases hp : p.1 = k
    · rw [if_pos hp]
      simp [keysOf, hp]
    · rw [alookup_cons, if_neg hp] at h
      rw [if_neg hp]
      simp only [keysOf, List.map_cons]
      rw [show List.map Prod.fst (aset t k v) = keysOf (aset t k v) from rfl,
        show List.map Prod.fst t = keysOf t from rfl, ih h]

theorem keysOf_aset_new {α : Type} (l : List (String × α)) (k : String) (v : α)
    (h : alookup l k = none) : keysOf (aset l k v) = keysOf l ++ [k] := by
  induction l with
  | nil => simp [aset, keysOf]
  | cons p t ih =>
    rw [aset_cons]
    by_cases hp : p.1 = k
    · rw [alookup_cons, if_pos hp] at h
      simp at h
    · rw [alookup_cons, if_neg hp] at h
      rw [if_neg hp]
      simp only [keysOf, List.map_cons, List.cons_append]
      rw [show List.map Prod.fst (aset t k v) = keysOf (aset t k v) from rfl,
        show List.map Prod.fst t = keysOf t from rfl, ih h]

theorem length_aset_present {α : Type} (l : List (String × α)) (k : String) (v : α)
    (h : (alookup l k).isSome) : (aset l k v).length = l.length := by
  have h1 := congrArg List.length (keysOf_aset_present l k v h)
  simpa [keysOf] using h1

theorem length_aerase_present {α : Type} (l : List (String × α)) (k : String)
    (h : (alookup l k).isSome) : (aerase l k).length + 1 = l.length := by
  induction l with
  | nil => simp [alookup] at h
  | cons p t ih =>
    rw [aerase_cons]
    by_cases hp : p.1 = k
    · rw [if_pos hp]
      simp
    · rw [alookup_cons, if_neg hp] at h
      rw [if_neg hp]
      simp only [List.length_cons]
      rw [← ih h]

theorem nodup_keysOf_aset {α : Type} (l : List (String × α)) (k : String) (v : α)
    (h : (keysOf l).Nodup) : (keysOf (aset l k v)).Nodup := by
  cases hl : alookup l k with
  | some w =>
    rw [keysOf_aset_present l k v (by simp [hl])]
    exact h
  | none =>
    rw [keysOf_aset_new l k v hl]
    rw [List.nodup_append]
    refine ⟨h, List.nodup_singleton k, ?_⟩
    intro x hx
    simp only [List.mem_singleton]
    intro hc
    subst hc
    exact (alookup_eq_none_iff l x).mp hl hx

theorem keysOf_aerase_sublist {α : Type} (l : List (String × α)) (k : String) :
    (keysOf (aerase l k)).Sublist (keysOf l) := by
  induction l with
  | nil => simp [aerase, keysOf]
  | cons p t ih =>
    rw [aerase_cons]
    by_cases hp : p.1 = k
    · rw [if_pos hp]
      simp only [keysOf, List.map_cons]
      exact List.sublist_cons_self _ _
    · rw [if_neg hp]
      simp only [keysOf, List.map_cons]
      exact ih.cons₂ _

theorem nodup_keysOf_aerase {α : Type} (l : List (String × α)) (k : String)
    (h : (keysOf l).Nodup) : (keysOf (aerase l k)).Nodup :=
  (keysOf_aerase_sublist l k).nodup h

theorem alookup_append_new {α : Type} (l : List (String × α)) (k : String) (d : α)
    (h : alookup l k = none) : alookup (l ++ [(k, d)]) k = some d := by
  induction l with
  | nil => simp [alookup]
  | cons p t ih =>
    rw [alookup_cons] at h
    by_cases hp : p.1 = k
    · rw [if_pos hp] at h
      simp at h
    · rw [if_neg hp] at h
      rw [List.cons_append, alookup_cons, if_neg hp]
      exact ih h

theorem alookup_append_ne {α : Type} (l : List (String × α)) (k k' : String) (d : α)
    (h : k' ≠ k) : alookup (l ++ [(k, d)]) k' = alookup l k' := by
  induction l with
  | nil => simp [alookup, Ne.symm h]
  | cons p t ih =>
    rw [List.cons_append, alookup_cons, alookup_cons]
    by_cases hp : p.1 = k'
    · rw [if_pos hp, if_pos hp]
    · rw [if_neg hp, if_neg hp]
      exact ih

theorem asetdefault_of_isSome {α : Type} (l : List (String × α)) (k : String) (d : α)
    (h : (alookup l k).isSome) : asetdefault l k d = l := by
  simp [asetdefault, h]

theorem asetdefault_of_none {α : Type} (l : List (String × α)) (k : String) (d : α)
    (h : alookup l k = none) : asetdefault l k d = l ++ [(k, d)] := by
  simp [asetdefault, h]

/-! ### Memory-level lemmas -/

theorem mlookup_aset_eq (mem : Memory) (a : String) (b : AspectMem) (v : String) :
    mlookup (aset mem a b) a v = alookup b v := by
  simp [mlookup, alookup_aset_self]

theorem mlookup_aset_ne (mem : Memory) (a a' : String) (b : AspectMem) (v : String)
    (h : a' ≠ a) : mlookup (aset mem a b) a' v = mlookup mem a' v := by
  simp [mlookup, alookup_aset_ne _ _ _ _ h]

theorem mlookup_eq_some (mem : Memory) (a v : String) (e : Entry)
    (h : mlookup mem a v = some e) :
    ∃ b, alookup mem a = some b ∧ alookup b v = some e := by
  unfold mlookup at h
  cases hb : alookup mem a with
  | none =>
    rw [hb] at h
    simp [alookup] at h
  | some b =>
    rw [hb] at h
    exact ⟨b, rfl, h⟩

theorem wfMem_bucket (mem : Memory) (a : String) (b : AspectMem)
    (hwf : WfMem mem) (hb : alookup mem a = some b) : (keysOf b).Nodup :=
  hwf (a, b) (alookup_mem mem a b hb)

/-- The weighted average `(c·e + s)/(e+1)` lies between `min c s` and `max c s`. -/
theorem reinforce_avg_bounds (c s : ℚ) (e : ℕ) :
    min c s ≤ (c * e + s) / (e + 1) ∧ (c * e + s) / (e + 1) ≤ max c s := by
  have he : (0 : ℚ) < (e : ℚ) + 1 := by positivity
  have he0 : (0 : ℚ) ≤ (e : ℚ) := Nat.cast_nonneg e
  constructor
  · rw [le_div_iff₀ he]
    have h1 : min c s ≤ c := min_le_left c s
    have h2 : min c s ≤ s := min_le_right c s
    nlinarith
  · rw [div_le_iff₀ he]
    have h1 : c ≤ max c s := le_max_left c s
    have h2 : s ≤ max c s := le_max_right c s
    nlinarith

/-- C4: reinforcing an entry `(c, e)` with resolved strength `s` yields
confidence exactly `(c·e + s)/(e+1)`, which lies between `min c s` and
`max c s`, and evidence `e + 1`. -/
theorem C4_reinforce_bound (aspects : List String) (conf : StrengthMap) (now : ℕ)
    (mem : Memory) (act : ActionRec) (a v : String) (c : ℚ) (e ls : ℕ)
    (h1 : act.action = some "reinforce") (h2 : act.aspect = some a)
    (h3 : act.value = some v) (ha : a ∈ aspects) (ha' : a ≠ "") (hv' : v ≠ "")
    (hent : mlookup mem a (pyLower v) = some ⟨c, e, ls⟩) :
    ∃ mem', apply_action aspects conf now mem act = .ok mem' ∧
      mlookup mem' a (pyLower v) =
        some ⟨(c * e + resolveStrength conf act) / (e + 1), e + 1, now⟩ ∧
      min c (resolveStrength conf act) ≤ (c * e + resolveStrength conf act) / (e + 1) ∧
      (c * e + resolveStrength conf act) / (e + 1) ≤ max c (resolveStrength conf act) := by
  obtain ⟨b, hb, hbe⟩ := mlookup_eq_some _ _ _ _ hent
  have hmem1 : asetdefault mem a [] = mem :=
    asetdefault_of_isSome _ _ _ (by simp [hb])
  refine ⟨aset mem a (aset b (pyLower v)
    ⟨(c * e + resolveStrength conf act) / (e + 1), e + 1, now⟩), ?_, ?_, ?_⟩
  · simp only [apply_action, h1, h2, h3, falsy, Option.getD_some, hmem1, hb, hbe]
    simp [ha, ha', hv']
  · rw [mlookup_aset_eq, alookup_aset_self]
  · exact reinforce_avg_bounds c (resolveStrength conf act) e

section
attribute [local semireducible] Rat.ofScientific Rat.mul Rat.inv Rat.add Rat.sub

/-- Witness for C4 at the spec's own scenario: entry `(0.6, 1)` reinforced
with strength `strong = 0.9` gives `(0.75, 2)`. -/
theorem C4_witness :
    ∃ mem', apply_action ASPECTS STRENGTH_TO_CONF 7
        [("cuisine", [("italian", ⟨0.6, 1, 0⟩)])]
        ⟨some "reinforce", some "cuisine", some "italian", none, some "strong"⟩ = .ok mem' ∧
      mlookup mem' "cuisine" (pyLower "italian") =
        some ⟨(0.6 * 1 + resolveStrength STRENGTH_TO_CONF
          ⟨some "reinforce", some "cuisine", some "italian", none, some "strong"⟩) / (1 + 1),
          1 + 1, 7⟩ ∧
      min 0.6 (resolveStrength STRENGTH_TO_CONF
          ⟨some "reinforce", some "cuisine", some "italian", none, some "strong"⟩) ≤
        (0.6 * 1 + resolveStrength STRENGTH_TO_CONF
          ⟨some "reinforce", some "cuisine", some "italian", none, some "strong"⟩) / (1 + 1) ∧
      (0.6 * 1 + resolveStrength STRENGTH_TO_CONF
          ⟨some "reinforce", some "cuisine", some "italian", none, some "strong"⟩) / (1 + 1) ≤
        max 0.6 (resolveStrength STRENGTH_TO_CONF
          ⟨some "reinforce", some "cuisine", some "italian", none, some "strong"⟩) :=
  C4_reinforce_bound ASPECTS STRENGTH_TO_CONF 7
    [("cuisine", [("italian", ⟨0.6, 1, 0⟩)])]
    ⟨some "reinforce", some "cuisine", some "italian", none, some "strong"⟩
    "cuisine" "italian" 0.6 1 0 rfl rfl rfl (by decide) (by decide) (by decide) (by decide)

end

/-! ### Weaken arithmetic -/

theorem weakenConf_strict_lt (c : ℚ) (h : 0.05 < c) : weakenConf c < c := by
  unfold weakenConf
  rw [max_lt_iff]
  constructor
  · exact h
  · have hc0 : (0 : ℚ) < c := lt_trans (by norm_num) h
    nlinarith

theorem weakenIter_floor (c : ℚ) (n : ℕ) (h : 1 ≤ n) : 0.05 ≤ weakenIter n c := by
  cases n with
  | zero => exact absurd h (by norm_num)
  | succ m =>
    show (0.05 : ℚ) ≤ weakenConf (weakenIter m c)
    exact le_max_left _ _

theorem weakenIter_le (c : ℚ) (n : ℕ) : weakenIter n c ≤ max 0.05 (c * 0.6 ^ n) := by
  induction n with
  | zero =>
    show c ≤ max (0.05 : ℚ) (c * 0.6 ^ 0)
    rw [pow_zero, mul_one]
    exact le_max_right _ _
  | succ n ih =>
    show max (0.05 : ℚ) (weakenIter n c * 0.6) ≤ max 0.05 (c * 0.6 ^ (n + 1))
    apply max_le (le_max_left _ _)
    have h2 : weakenIter n c * 0.6 ≤ max (0.05 : ℚ) (c * 0.6 ^ n) * 0.6 :=
      mul_le_mul_of_nonneg_right ih (by norm_num)
    apply le_trans h2
    rw [max_mul_of_nonneg _ _ (show (0 : ℚ) ≤ 0.6 by norm_num)]
    apply max_le
    · apply le_max_of_le_left
      norm_num
    · apply le_max_of_le_right
      exact le_of_eq (by ring)

theorem weakenIter_converges (c : ℚ) : ∃ N, ∀ n, N ≤ n → weakenIter n c = 0.05 := by
  by_cases hc : c ≤ 0
  · refine ⟨1, fun n hn => ?_⟩
    have hup : weakenIter n c ≤ 0.05 := by
      have h1 := weakenIter_le c n
      have h2 : c * 0.6 ^ n ≤ 0.05 := by
        have : c * 0.6 ^ n ≤ 0 :=
          mul_nonpos_of_nonpos_of_nonneg hc (by positivity)
        linarith
      rw [max_eq_left h2] at h1
      exact h1
    exact le_antisymm hup (weakenIter_floor c n hn)
  · push_neg at hc
    obtain ⟨n0, hn0⟩ := exists_pow_lt_of_lt_one
      (show (0 : ℚ) < 0.05 / c by positivity) (show (0.6 : ℚ) < 1 by norm_num)
    refine ⟨n0 + 1, fun n hn => ?_⟩
    have hpow : (0.6 : ℚ) ^ n ≤ 0.6 ^ n0 :=
      pow_le_pow_of_le_one (by norm_num) (by norm_num) (le_trans (Nat.le_succ n0) hn)
    have h2 : c * 0.6 ^ n ≤ 0.05 := by
      have h3 : c * 0.6 ^ n ≤ c * 0.6 ^ n0 :=
        mul_le_mul_of_nonneg_left hpow (le_of_lt hc)
      have h4 : c * 0.6 ^ n0 < c * (0.05 / c) :=
        mul_lt_mul_of_pos_left hn0 hc
      have h5 : c * (0.05 / c) = 0.05 := by
        field_simp
      linarith
    have hup : weakenIter n c ≤ 0.05 := by
      have h1 := weakenIter_le c n
      rw [max_eq_left h2] at h1
      exact h1
    exact le_antisymm hup
      (weakenIter_floor c n (le_trans (Nat.le_add_left 1 n0) hn))

/-- C5: a weaken action on a present entry `(c, e)` sets confidence to
`max(0.05, c·0.6)` and keeps the evidence; one weaken strictly decreases any
confidence above 0.05; iterated weakening never drops below 0.05 and is
eventually exactly 0.05. -/
theorem C5_weaken_floor :
    (∀ (aspects : List String) (conf : StrengthMap) (now : ℕ) (mem : Memory)
      (act : ActionRec) (a v : String) (c : ℚ) (e ls : ℕ),
      act.action = some "weaken" → act.aspect = some a → act.value = some v →
      a ∈ aspects → a ≠ "" → v ≠ "" →
      mlookup mem a (pyLower v) = some ⟨c, e, ls⟩ →
      ∃ mem', apply_action aspects conf now mem act = .ok mem' ∧
        mlookup mem' a (pyLower v) = some ⟨weakenConf c, e, now⟩) ∧
    (∀ c : ℚ, 0.05 < c → weakenConf c < c) ∧
    (∀ (c : ℚ) (n : ℕ), 1 ≤ n → 0.05 ≤ weakenIter n c) ∧
    (∀ c : ℚ, ∃ N, ∀ n, N ≤ n → weakenIter n c = 0.05) := by
  refine ⟨?_, weakenConf_strict_lt, weakenIter_floor, weakenIter_converges⟩
  intro aspects conf now mem act a v c e ls h1 h2 h3 ha ha' hv' hent
  obtain ⟨b, hb, hbe⟩ := mlookup_eq_some _ _ _ _ hent
  have hmem1 : asetdefault mem a [] = mem :=
    asetdefault_of_isSome _ _ _ (by simp [hb])
  refine ⟨aset mem a (aset b (pyLower v) ⟨weakenConf c, e, now⟩), ?_, ?_⟩
  · simp only [apply_action, h1, h2, h3, falsy, Option.getD_some, hmem1, hb, hbe]
    simp [ha, ha', hv']
  · rw [mlookup_aset_eq, alookup_aset_self]

section
attribute [local semireducible] Rat.ofScientific Rat.mul Rat.inv Rat.add Rat.sub

/-- Witness for C5 at the spec's own scenario (`confidence 0.1` weakens to
`max(0.05, 0.06)`), plus concrete instances of the arithmetic parts. -/
theorem C5_witness :
    (∃ mem', apply_action ASPECTS STRENGTH_TO_CONF 7
        [("cuisine", [("italian", ⟨0.1, 1, 0⟩)])]
        ⟨some "weaken", some "cuisine", some "italian", none, none⟩ = .ok mem' ∧
      mlookup mem' "cuisine" (pyLower "italian") = some ⟨weakenConf 0.1, 1, 7⟩) ∧
    weakenConf 0.5 < 0.5 ∧
    0.05 ≤ weakenIter 3 1 ∧
    (∃ N, ∀ n, N ≤ n → weakenIter n 1 = 0.05) :=
  ⟨C5_weaken_floor.1 ASPECTS STRENGTH_TO_CONF 7
      [("cuisine", [("italian", ⟨0.1, 1, 0⟩)])]
      ⟨some "weaken", some "cuisine", some "italian", none, none⟩
      "cuisine" "italian" 0.1 1 0 rfl rfl rfl (by decide) (by decide) (by decide) (by decide),
   C5_weaken_floor.2.1 0.5 (by norm_num),
   C5_weaken_floor.2.2.1 1 3 (by norm_num),
   C5_weaken_floor.2.2.2 1⟩

end

/-! ### No-op actions still create the aspect bucket (C9) -/

/-- C9: an action whose `action`, `aspect`, `value` are all present, whose
aspect is in the vocabulary but new to memory, and whose tag is anything but
`"add"`, no-ops on entries yet appends an empty bucket for the aspect;
afterwards `has_memory` is true while `get_memory_view` is unchanged (the
empty bucket is filtered out). -/
theorem C9_noop_bucket (aspects : List String) (conf : StrengthMap) (now : ℕ)
    (mem : Memory) (act : ActionRec) (t a v : String)
    (h1 : act.action = some t) (ht : t ≠ "") (htadd : t ≠ "add")
    (h2 : act.aspect = some a) (ha : a ∈ aspects) (ha' : a ≠ "")
    (h3 : act.value = some v) (hv' : v ≠ "")
    (hnew : alookup mem a = none) :
    apply_action aspects conf now mem act = .ok (mem ++ [(a, [])]) ∧
    has_memory (mem ++ [(a, [])]) = true ∧
    get_memory_view (mem ++ [(a, [])]) = get_memory_view mem := by
  have hmem1 : asetdefault mem a [] = mem ++ [(a, [])] :=
    asetdefault_of_none _ _ _ hnew
  have hbucket : alookup (mem ++ [(a, [])]) a = some [] :=
    alookup_append_new _ _ _ hnew
  refine ⟨?_, ?_, ?_⟩
  · simp only [apply_action, h1, h2, h3, falsy, Option.getD_some, hmem1, hbucket]
    simp only [alookup_nil]
    simp [ha, ha', hv', ht, htadd]
  · simp [has_memory]
  · simp [get_memory_view]

section
attribute [local semireducible] Rat.ofScientific Rat.mul Rat.inv Rat.add Rat.sub

/-- Witness for C9: an `ignore` action on a fresh valid aspect creates the
empty bucket, makes `has_memory` true, and leaves the view unchanged. -/
theorem C9_witness :
    apply_action ASPECTS STRENGTH_TO_CONF 3 []
      ⟨some "ignore", some "price", some "cheap", none, none⟩ = .ok ([] ++ [("price", [])]) ∧
    has_memory ([] ++ [("price", [])]) = true ∧
    get_memory_view ([] ++ [("price", [])]) = get_memory_view [] :=
  C9_noop_bucket ASPECTS STRENGTH_TO_CONF 3 []
    ⟨some "ignore", some "price", some "cheap", none, none⟩
    "ignore" "price" "cheap" rfl (by decide) (by decide) rfl (by decide) (by decide)
    rfl (by decide) (by decide)

end

/-! ### Vocabulary invariant (C6) -/

theorem apply_action_invalid_aspect (aspects : List String) (conf : StrengthMap)
    (now : ℕ) (mem : Memory) (act : ActionRec)
    (h : ∀ a, act.aspect = some a → a ∉ aspects) :
    apply_action aspects conf now mem act = .ok mem := by
  cases hac : act.aspect with
  | none => simp [apply_action, falsy, hac]
  | some a =>
    by_cases ha' : a = ""
    · simp [apply_action, falsy, hac, ha']
    · have hnotin := h a hac
      have hfa : falsy (some a) = false := by simp [falsy, ha']
      simp only [apply_action, hac, Option.getD_some]
      by_cases h1 : falsy act.action
      · simp [h1]
      · by_cases h3 : falsy act.value
        · simp [h1, h3]
        · simp [h1, h3, hfa, hnotin]

/-- C6: an action list in which no record carries an aspect belonging to the
vocabulary leaves the memory exactly unchanged. -/
theorem C6_vocabulary_invariant (aspects : List String) (conf : StrengthMap)
    (now : ℕ) (mem : Memory) (acts : List ActionRec)
    (h : ∀ act ∈ acts, ∀ a, act.aspect = some a → a ∉ aspects) :
    apply_actions aspects conf now mem acts = .ok mem := by
  induction acts with
  | nil => rfl
  | cons act rest ih =>
    have hstep := apply_action_invalid_aspect aspects conf now mem act
      (h act (List.mem_cons_self act rest))
    simp only [apply_actions, hstep]
    exact ih fun x hx => h x (List.mem_cons_of_mem _ hx)

/-- Witness for C6: an action on the out-of-vocabulary aspect `mood` does
not touch memory. -/
theorem C6_witness :
    apply_actions ASPECTS STRENGTH_TO_CONF 0
      [("cuisine", [("italian", ⟨1, 1, 0⟩)])]
      [⟨some "add", some "mood", some "happy", none, some "strong"⟩,
       ⟨some "weaken", some "vibe", some "chill", none, none⟩] =
      .ok [("cuisine", [("italian", ⟨1, 1, 0⟩)])] :=
  C6_vocabulary_invariant ASPECTS STRENGTH_TO_CONF 0
    [("cuisine", [("italian", ⟨1, 1, 0⟩)])]
    [⟨some "add", some "mood", some "happy", none, some "strong"⟩,
     ⟨some "weaken", some "vibe", some "chill", none, none⟩]
    (by
      intro act hact a haspect
      simp only [List.mem_cons, List.not_mem_nil, or_false] at hact
      rcases hact with h | h
      · subst h
        cases haspect
        decide
      · subst h
        cases haspect
        decide)

/-! ### Strength resolution (C8) -/

/-- C8 amended: the strength used by `apply_actions` is the map entry for the
record's label when present; an unrecognized label falls back to 0.6; an
absent strength key resolves through the label `"medium"`, so it yields the
map's `"medium"` entry when that key exists and 0.6 only otherwise. -/
theorem C8_strength_resolution :
    (∀ (conf : StrengthMap) (act : ActionRec) (lbl : String) (q : ℚ),
      act.strength = some lbl → alookup conf lbl = some q →
      resolveStrength conf act = q) ∧
    (∀ (conf : StrengthMap) (act : ActionRec) (lbl : String),
      act.strength = some lbl → alookup conf lbl = none →
      resolveStrength conf act = 0.6) ∧
    (∀ (conf : StrengthMap) (act : ActionRec) (q : ℚ),
      act.strength = none → alookup conf "medium" = some q →
      resolveStrength conf act = q) ∧
    (∀ (conf : StrengthMap) (act : ActionRec),
      act.strength = none → alookup conf "medium" = none →
      resolveStrength conf act = 0.6) := by
  refine ⟨?_, ?_, ?_, ?_⟩
  · intro conf act lbl q hs hl
    simp [resolveStrength, smapGet, hs, hl]
  · intro conf act lbl hs hl
    simp [resolveStrength, smapGet, hs, hl]
  · intro conf act q hs hl
    simp [resolveStrength, smapGet, hs, hl]
  · intro conf act hs hl
    simp [resolveStrength, smapGet, hs, hl]

section
attribute [local semireducible] Rat.ofScientific Rat.mul Rat.inv Rat.add Rat.sub

/-- Counterexample for C8 as stated: with a strength map assigning
`medium ↦ 0.7`, a record with no strength key resolves to 0.7, not 0.6, and
the `add` branch stores 0.7 — the resolution is not 0.6 "regardless of what
the map assigns to medium". -/
theorem C8_counterexample :
    resolveStrength [("medium", 0.7)]
      ⟨some "add", some "cuisine", some "pizza", none, none⟩ ≠ 0.6 ∧
    apply_action ASPECTS [("medium", 0.7)] 0 []
      ⟨some "add", some "cuisine", some "pizza", none, none⟩ =
      .ok [("cuisine", [("pizza", ⟨0.7, 1, 0⟩)])] := by
  exact ⟨by decide, by decide⟩

/-- Witness for C8: an unrecognized label falls back to 0.6, while an absent
strength key picks up the map's `medium` entry. -/
theorem C8_witness :
    resolveStrength [("medium", 0.7)]
      ⟨some "add", some "cuisine", some "pizza", none, some "huge"⟩ = 0.6 ∧
    resolveStrength [("medium", 0.7)]
      ⟨some "add", some "cuisine", some "pizza", none, none⟩ = 0.7 :=
  ⟨C8_strength_resolution.2.1 [("medium", 0.7)]
      ⟨some "add", some "cuisine", some "pizza", none, some "huge"⟩ "huge" rfl (by decide),
   C8_strength_resolution.2.2.1 [("medium", 0.7)]
      ⟨some "add", some "cuisine", some "pizza", none, none⟩ 0.7 rfl (by decide)⟩

end

/-! ### Ingestion with an unknown strength label (C10) -/

/-- C10 amended: an item whose strength label is not a key of the map makes
`ingest_extracted_preferences` raise a lookup error (Python `KeyError` from
`STRENGTH_TO_CONF[strength]`), escaping after the setdefault side effect of
that item; no 0.6 fallback applies on the ingestion path. -/
theorem C10_ingest_unknown_strength (conf : StrengthMap) (now : ℕ) (mem : Memory)
    (i : PrefItem) (rest soft : List PrefItem)
    (h : alookup conf i.strength = none) :
    ingest_extracted_preferences conf now mem ⟨i :: rest, soft⟩ =
      .error (asetdefault mem i.aspect []) := by
  simp only [ingest_extracted_preferences, ingestList, ingestOne, h]

section
attribute [local semireducible] Rat.ofScientific Rat.mul Rat.inv Rat.add Rat.sub

/-- Counterexample for C10 as stated: the unrecognized label `"huge"` makes
ingestion raise rather than store the item with a default confidence. -/
theorem C10_counterexample :
    ingest_extracted_preferences STRENGTH_TO_CONF 0 []
      ⟨[⟨"cuisine", "Italian", "huge"⟩], []⟩ = .error [("cuisine", [])] ∧
    ¬ ∃ m', ingest_extracted_preferences STRENGTH_TO_CONF 0 []
      ⟨[⟨"cuisine", "Italian", "huge"⟩], []⟩ = .ok m' := by
  have hrun : ingest_extracted_preferences STRENGTH_TO_CONF 0 []
      ⟨[⟨"cuisine", "Italian", "huge"⟩], []⟩ = .error [("cuisine", [])] := by decide
  refine ⟨hrun, ?_⟩
  rintro ⟨m', hm⟩
  rw [hrun] at hm
  cases hm

/-- Witness for C10: the amended statement at a concrete unknown label. -/
theorem C10_witness :
    ingest_extracted_preferences STRENGTH_TO_CONF 4 []
      ⟨[⟨"price", "Cheap", "odd"⟩], []⟩ = .error (asetdefault [] "price" []) :=
  C10_ingest_unknown_strength STRENGTH_TO_CONF 4 [] ⟨"price", "Cheap", "odd"⟩ [] []
    (by decide)

end

/-! ### Merge absorption (C1, C2) -/

/-- The merge branch of `apply_action` when target and (distinct) value both
exist: target gets `max` confidence, summed evidence, refreshed `last_seen`;
the value key is deleted. -/
theorem merge_absorb (aspects : List String) (conf : StrengthMap) (now : ℕ)
    (mem : Memory) (act : ActionRec) (a v t : String)
    (ct cv : ℚ) (et ev lt lv : ℕ)
    (h1 : act.action = some "merge") (h2 : act.aspect = some a)
    (h3 : act.value = some v) (h4 : act.target = some t)
    (ha : a ∈ aspects) (ha' : a ≠ "") (hv' : v ≠ "") (ht' : t ≠ "")
    (b : AspectMem) (hb : alookup mem a = some b) (hnd : (keysOf b).Nodup)
    (hne : pyLower v ≠ pyLower t)
    (hT : alookup b (pyLower t) = some ⟨ct, et, lt⟩)
    (hV : alookup b (pyLower v) = some ⟨cv, ev, lv⟩) :
    ∃ mem', apply_action aspects conf now mem act = .ok mem' ∧
      mlookup mem' a (pyLower t) = some ⟨max ct cv, et + ev, now⟩ ∧
      mlookup mem' a (pyLower v) = none := by
  have hmem1 : asetdefault mem a [] = mem :=
    asetdefault_of_isSome _ _ _ (by simp [hb])
  have ht1 : alookup (aset b (pyLower t) ⟨max ct cv, et, lt⟩) (pyLower t)
      = some ⟨max ct cv, et, lt⟩ := alookup_aset_self _ _ _
  have hv1 : alookup (aset b (pyLower t) ⟨max ct cv, et, lt⟩) (pyLower v)
      = some ⟨cv, ev, lv⟩ := by
    rw [alookup_aset_ne _ _ _ _ hne]
    exact hV
  have hb3t : alookup (aerase (aset (aset b (pyLower t) ⟨max ct cv, et, lt⟩)
      (pyLower t) ⟨max ct cv, et + ev, lt⟩) (pyLower v)) (pyLower t)
      = some ⟨max ct cv, et + ev, lt⟩ := by
    rw [alookup_aerase_ne _ _ _ (Ne.symm hne)]
    exact alookup_aset_self _ _ _
  refine ⟨aset mem a (aset (aerase (aset (aset b (pyLower t) ⟨max ct cv, et, lt⟩)
      (pyLower t) ⟨max ct cv, et + ev, lt⟩) (pyLower v))
      (pyLower t) ⟨max ct cv, et + ev, now⟩), ?_, ?_, ?_⟩
  · simp only [apply_action, h1, h2, h3, h4, falsy, Option.getD_some, hmem1, hb,
      hT, hV, ht1, hv1, hb3t]
    simp [ha, ha', hv', ht']
  · rw [mlookup_aset_eq, alookup_aset_self]
  · rw [mlookup_aset_eq, alookup_aset_ne _ _ _ _ hne,
      alookup_aerase_self]
    exact nodup_keysOf_aset _ _ _ (nodup_keysOf_aset _ _ _ hnd)

/-- C1 amended: merge evidence conservation for a value distinct from the
target — target becomes `(max(ct,cv), et+ev)` and the value key disappears.
(The claim's inclusion of `value = target` fails; see the counterexample.) -/
theorem C1_merge_evidence_conservation (aspects : List String) (conf : StrengthMap)
    (now : ℕ) (mem : Memory) (act : ActionRec) (a v t : String)
    (ct cv : ℚ) (et ev lt lv : ℕ)
    (h1 : act.action = some "merge") (h2 : act.aspect = some a)
    (h3 : act.value = some v) (h4 : act.target = some t)
    (ha : a ∈ aspects) (ha' : a ≠ "") (hv' : v ≠ "") (ht' : t ≠ "")
    (b : AspectMem) (hb : alookup mem a = some b) (hnd : (keysOf b).Nodup)
    (hne : pyLower v ≠ pyLower t)
    (hT : alookup b (pyLower t) = some ⟨ct, et, lt⟩)
    (hV : alookup b (pyLower v) = some ⟨cv, ev, lv⟩) :
    ∃ mem', apply_action aspects conf now mem act = .ok mem' ∧
      mlookup mem' a (pyLower t) = some ⟨max ct cv, et + ev, now⟩ ∧
      mlookup mem' a (pyLower v) = none :=
  merge_absorb aspects conf now mem act a v t ct cv et ev lt lv
    h1 h2 h3 h4 ha ha' hv' ht' b hb hnd hne hT hV

section
attribute [local semireducible] Rat.ofScientific Rat.mul Rat.inv Rat.add Rat.sub

/-- Counterexample for C1 as stated: merging a value into itself does not
leave the target at `(max(ct,ct), et+et)` — the `del` removes the shared key
and the final `last_seen` write raises `KeyError`, leaving the entry gone. -/
theorem C1_counterexample :
    apply_action ASPECTS STRENGTH_TO_CONF 0
      [("cuisine", [("italian", ⟨0.5, 2, 0⟩)])]
      ⟨some "merge", some "cuisine", some "italian", some "italian", none⟩
      = .error [("cuisine", [])] ∧
    ¬ ∃ mem', apply_action ASPECTS STRENGTH_TO_CONF 0
      [("cuisine", [("italian", ⟨0.5, 2, 0⟩)])]
      ⟨some "merge", some "cuisine", some "italian", some "italian", none⟩ = .ok mem' ∧
      mlookup mem' "cuisine" "italian" = some ⟨max 0.5 0.5, 2 + 2, 0⟩ := by
  have hrun : apply_action ASPECTS STRENGTH_TO_CONF 0
      [("cuisine", [("italian", ⟨0.5, 2, 0⟩)])]
      ⟨some "merge", some "cuisine", some "italian", some "italian", none⟩
      = .error [("cuisine", [])] := by decide
  refine ⟨hrun, ?_⟩
  rintro ⟨mem', hm, _⟩
  rw [hrun] at hm
  cases hm

/-- Witness for C1 at the spec's own merge scenario. -/
theorem C1_witness :
    ∃ mem', apply_action ASPECTS STRENGTH_TO_CONF 9
      [("cuisine", [("mediterranean", ⟨0.5, 2, 0⟩), ("italian", ⟨0.8, 1, 0⟩)])]
      ⟨some "merge", some "cuisine", some "italian", some "mediterranean", none⟩
      = .ok mem' ∧
    mlookup mem' "cuisine" (pyLower "mediterranean") = some ⟨max 0.5 0.8, 2 + 1, 9⟩ ∧
    mlookup mem' "cuisine" (pyLower "italian") = none :=
  C1_merge_evidence_conservation ASPECTS STRENGTH_TO_CONF 9
    [("cuisine", [("mediterranean", ⟨0.5, 2, 0⟩), ("italian", ⟨0.8, 1, 0⟩)])]
    ⟨some "merge", some "cuisine", some "italian", some "mediterranean", none⟩
    "cuisine" "italian" "mediterranean" 0.5 0.8 2 1 0 0
    rfl rfl rfl rfl (by decide) (by decide) (by decide) (by decide)
    [("mediterranean", ⟨0.5, 2, 0⟩), ("italian", ⟨0.8, 1, 0⟩)] (by decide)
    (by decide) (by decide) (by decide) (by decide)

end

/-- C2 amended: a merge whose (lower-cased) value differs from its target
reduces the aspect's value count by at most one, removes the value key, and
keeps the target present.  (For `value = target` the target itself is deleted
and the action raises; see the counterexample.) -/
theorem C2_merge_count (aspects : List String) (conf : StrengthMap) (now : ℕ)
    (mem : Memory) (act : ActionRec) (a v t : String) (ct : ℚ) (et lt : ℕ)
    (h1 : act.action = some "merge") (h2 : act.aspect = some a)
    (h3 : act.value = some v) (h4 : act.target = some t)
    (ha : a ∈ aspects) (ha' : a ≠ "") (hv' : v ≠ "") (ht' : t ≠ "")
    (b : AspectMem) (hb : alookup mem a = some b) (hnd : (keysOf b).Nodup)
    (hne : pyLower v ≠ pyLower t)
    (hT : alookup b (pyLower t) = some ⟨ct, et, lt⟩) :
    ∃ mem' b', apply_action aspects conf now mem act = .ok mem' ∧
      alookup mem' a = some b' ∧
      b.length ≤ b'.length + 1 ∧
      (alookup b' (pyLower t)).isSome ∧
      alookup b' (pyLower v) = none := by
  have hmem1 : asetdefault mem a [] = mem :=
    asetdefault_of_isSome _ _ _ (by simp [hb])
  cases hV : alookup b (pyLower v) with
  | none =>
    refine ⟨aset mem a (aset b (pyLower t) ⟨ct, et, now⟩),
      aset b (pyLower t) ⟨ct, et, now⟩, ?_, ?_, ?_, ?_, ?_⟩
    · simp only [apply_action, h1, h2, h3, h4, falsy, Option.getD_some, hmem1, hb,
        hT, hV]
      simp [ha, ha', hv', ht']
    · exact alookup_aset_self _ _ _
    · rw [length_aset_present _ _ _ (by simp [hT])]
      omega
    · simp [alookup_aset_self]
    · rw [alookup_aset_ne _ _ _ _ hne]
      exact hV
  | some vE =>
    obtain ⟨cv, ev, lv⟩ := vE
    have ht1 : alookup (aset b (pyLower t) ⟨max ct cv, et, lt⟩) (pyLower t)
        = some ⟨max ct cv, et, lt⟩ := alookup_aset_self _ _ _
    have hv1 : alookup (aset b (pyLower t) ⟨max ct cv, et, lt⟩) (pyLower v)
        = some ⟨cv, ev, lv⟩ := by
      rw [alookup_aset_ne _ _ _ _ hne]
      exact hV
    have hv2 : alookup (aset (aset b (pyLower t) ⟨max ct cv, et, lt⟩)
        (pyLower t) ⟨max ct cv, et + ev, lt⟩) (pyLower v) = some ⟨cv, ev, lv⟩ := by
      rw [alookup_aset_ne _ _ _ _ hne]
      exact hv1
    have hb3t : alookup (aerase (aset (aset b (pyLower t) ⟨max ct cv, et, lt⟩)
        (pyLower t) ⟨max ct cv, et + ev, lt⟩) (pyLower v)) (pyLower t)
        = some ⟨max ct cv, et + ev, lt⟩ := by
      rw [alookup_aerase_ne _ _ _ (Ne.symm hne)]
      exact alookup_aset_self _ _ _
    have hnd2 : (keysOf (aset (aset b (pyLower t) ⟨max ct cv, et, lt⟩)
        (pyLower t) ⟨max ct cv, et + ev, lt⟩)).Nodup :=
      nodup_keysOf_aset _ _ _ (nodup_keysOf_aset _ _ _ hnd)
    refine ⟨aset mem a (aset (aerase (aset (aset b (pyLower t) ⟨max ct cv, et, lt⟩)
        (pyLower t) ⟨max ct cv, et + ev, lt⟩) (pyLower v))
        (pyLower t) ⟨max ct cv, et + ev, now⟩),
      aset (aerase (aset (aset b (pyLower t) ⟨max ct cv, et, lt⟩)
        (pyLower t) ⟨max ct cv, et + ev, lt⟩) (pyLower v))
        (pyLower t) ⟨max ct cv, et + ev, now⟩, ?_, ?_, ?_, ?_, ?_⟩
    · simp only [apply_action, h1, h2, h3, h4, falsy, Option.getD_some, hmem1, hb,
        hT, hV, ht1, hv1, hb3t]
      simp [ha, ha', hv', ht']
    · exact alookup_aset_self _ _ _
    · have l1 : (aset b (pyLower t) ⟨max ct cv, et, lt⟩).length = b.length :=
        length_aset_present _ _ _ (by simp [hT])
      have l2 : (aset (aset b (pyLower t) ⟨max ct cv, et, lt⟩)
          (pyLower t) ⟨max ct cv, et + ev, lt⟩).length
          = (aset b (pyLower t) ⟨max ct cv, et, lt⟩).length :=
        length_aset_present _ _ _ (by simp [ht1])
      have l3 : (aerase (aset (aset b (pyLower t) ⟨max ct cv, et, lt⟩)
          (pyLower t) ⟨max ct cv, et + ev, lt⟩) (pyLower v)).length + 1
          = (aset (aset b (pyLower t) ⟨max ct cv, et, lt⟩)
          (pyLower t) ⟨max ct cv, et + ev, lt⟩).length :=
        length_aerase_present _ _ (by simp [hv2])
      have l4 : (aset (aerase (aset (aset b (pyLower t) ⟨max ct cv, et, lt⟩)
          (pyLower t) ⟨max ct cv, et + ev, lt⟩) (pyLower v))
          (pyLower t) ⟨max ct cv, et + ev, now⟩).length
          = (aerase (aset (aset b (pyLower t) ⟨max ct cv, et, lt⟩)
          (pyLower t) ⟨max ct cv, et + ev, lt⟩) (pyLower v)).length :=
        length_aset_present _ _ _ (by simp [hb3t])
      omega
    · simp [alookup_aset_self]
    · rw [alookup_aset_ne _ _ _ _ hne, alookup_aerase_self]
      exact hnd2

section
attribute [local semireducible] Rat.ofScientific Rat.mul Rat.inv Rat.add Rat.sub

/-- Counterexample for C2 as stated: a self-merge (`value = target`) deletes
the target entry itself and raises, so the target does not survive. -/
theorem C2_counterexample :
    apply_action ASPECTS STRENGTH_TO_CONF 0
      [("price", [("cheap", ⟨0.3, 1, 0⟩)])]
      ⟨some "merge", some "price", some "cheap", some "cheap", none⟩
      = .error [("price", [])] ∧
    ¬ ∃ mem', apply_action ASPECTS STRENGTH_TO_CONF 0
      [("price", [("cheap", ⟨0.3, 1, 0⟩)])]
      ⟨some "merge", some "price", some "cheap", some "cheap", none⟩ = .ok mem' ∧
      (mlookup mem' "price" "cheap").isSome := by
  have hrun : apply_action ASPECTS STRENGTH_TO_CONF 0
      [("price", [("cheap", ⟨0.3, 1, 0⟩)])]
      ⟨some "merge", some "price", some "cheap", some "cheap", none⟩
      = .error [("price", [])] := by decide
  refine ⟨hrun, ?_⟩
  rintro ⟨mem', hm, _⟩
  rw [hrun] at hm
  cases hm

/-- Witness for C2 on a two-value bucket: the count drops by one, the value
is gone, the target stays. -/
theorem C2_witness :
    ∃ mem' b', apply_action ASPECTS STRENGTH_TO_CONF 9
      [("cuisine", [("mediterranean", ⟨0.5, 2, 0⟩), ("italian", ⟨0.8, 1, 0⟩)])]
      ⟨some "merge", some "cuisine", some "italian", some "mediterranean", some "weak"⟩
      = .ok mem' ∧
    alookup mem' "cuisine" = some b' ∧
    ([("mediterranean", (⟨0.5, 2, 0⟩ : Entry)), ("italian", ⟨0.8, 1, 0⟩)]).length ≤ b'.length + 1 ∧
    (alookup b' (pyLower "mediterranean")).isSome ∧
    alookup b' (pyLower "italian") = none :=
  C2_merge_count ASPECTS STRENGTH_TO_CONF 9
    [("cuisine", [("mediterranean", ⟨0.5, 2, 0⟩), ("italian", ⟨0.8, 1, 0⟩)])]
    ⟨some "merge", some "cuisine", some "italian", some "mediterranean", some "weak"⟩
    "cuisine" "italian" "mediterranean" 0.5 2 0
    rfl rfl rfl rfl (by decide) (by decide) (by decide) (by decide)
    [("mediterranean", ⟨0.5, 2, 0⟩), ("italian", ⟨0.8, 1, 0⟩)] (by decide)
    (by decide) (by decide) (by decide)

end

/-! ### Evidence monotonicity of a single action (C3) -/

theorem mlookup_asetdefault_nil (mem : Memory) (asp a v : String) :
    mlookup (asetdefault mem asp []) a v = mlookup mem a v := by
  by_cases hs : (alookup mem asp).isSome
  · rw [asetdefault_of_isSome _ _ _ hs]
  · have hn : alookup mem asp = none := by
      cases h : alookup mem asp
      · rfl
      · rw [h] at hs
        simp at hs
    rw [asetdefault_of_none _ _ _ hn]
    by_cases ha : a = asp
    · subst ha
      unfold mlookup
      rw [alookup_append_new _ _ _ hn, hn]
      rfl
    · unfold mlookup
      rw [alookup_append_ne _ _ _ _ ha]

theorem nodup_bucket (mem : Memory) (asp : String) (hwf : WfMem mem) :
    (keysOf ((alookup (asetdefault mem asp []) asp).getD [])).Nodup := by
  cases hb : alookup mem asp with
  | some b =>
    rw [asetdefault_of_isSome _ _ _ (by simp [hb]), hb]
    exact hwf (asp, b) (alookup_mem _ _ _ hb)
  | none =>
    rw [asetdefault_of_none _ _ _ hb, alookup_append_new _ _ _ hb]
    simp [keysOf]

theorem step_mono_wrap (mem : Memory) (asp a v : String) (nb : AspectMem)
    (e e' : Entry) (h1 : mlookup mem a v = some e)
    (h2 : mlookup (aset (asetdefault mem asp []) asp nb) a v = some e')
    (hmono : ∀ e1, alookup ((alookup (asetdefault mem asp []) asp).getD []) v = some e →
      alookup nb v = some e1 → e.evidence ≤ e1.evidence) :
    e.evidence ≤ e'.evidence := by
  by_cases ha : a = asp
  · subst ha
    rw [mlookup_aset_eq] at h2
    have h1' : alookup ((alookup (asetdefault mem a []) a).getD []) v = some e :=
      (mlookup_asetdefault_nil mem a a v).trans h1
    exact hmono e' h1' h2
  · rw [mlookup_aset_ne _ _ _ _ _ ha, mlookup_asetdefault_nil, h1] at h2
    cases h2
    exact le_refl _

/-- C3 amended: one `apply_action` step never decreases the evidence of an
entry present both before and after it (add leaves existing entries alone,
reinforce increments, weaken preserves, merge-absorption adds the absorbed
evidence to the target).  The original claim also covered ingestion and whole
action lists, both refuted by the counterexample and the reason notes. -/
theorem C3_evidence_monotone (aspects : List String) (conf : StrengthMap) (now : ℕ)
    (mem : Memory) (act : ActionRec) (a v : String) (e e' : Entry)
    (hwf : WfMem mem)
    (h1 : mlookup mem a v = some e)
    (h2 : mlookup (resultMem (apply_action aspects conf now mem act)) a v = some e') :
    e.evidence ≤ e'.evidence := by
  have hrefl : ∀ e1 : Entry, mlookup mem a v = some e1 → e.evidence ≤ e1.evidence := by
    intro e1 hh
    rw [h1] at hh
    cases hh
    exact le_refl _
  simp only [apply_action] at h2
  set asp := act.aspect.getD "" with hasp
  set val := pyLower (act.value.getD "") with hval
  set tgt := pyLower (act.target.getD "") with htgt
  have hmem1case : ∀ e1 : Entry,
      mlookup (asetdefault mem asp []) a v = some e1 → e.evidence ≤ e1.evidence := by
    intro e1 hh
    rw [mlookup_asetdefault_nil] at hh
    exact hrefl e1 hh
  have hndb : (keysOf ((alookup (asetdefault mem asp []) asp).getD [])).Nodup :=
    nodup_bucket mem asp hwf
  split at h2
  · -- falsy: unchanged
    exact hrefl e' h2
  split at h2
  · -- invalid aspect: unchanged
    exact hrefl e' h2
  split at h2
  · -- add branch
    rename_i hcond
    refine step_mono_wrap mem asp a v _ e e' h1 h2 ?_
    intro e1 hb he1
    by_cases hvv : v = val
    · subst hvv
      rw [hcond.2] at hb
      cases hb
    · rw [alookup_aset_ne _ _ _ _ hvv] at he1
      rw [hb] at he1
      cases he1
      exact le_refl _
  split at h2
  · -- reinforce branch
    rename_i hcond
    split at h2
    · rename_i en heq
      refine step_mono_wrap mem asp a v _ e e' h1 h2 ?_
      intro e1 hb he1
      by_cases hvv : v = val
      · subst hvv
        rw [heq] at hb
        cases hb
        rw [alookup_aset_self] at he1
        cases he1
        exact Nat.le_succ _
      · rw [alookup_aset_ne _ _ _ _ hvv, hb] at he1
        cases he1
        exact le_refl _
    · exact hmem1case e' h2
  split at h2
  · -- weaken branch
    rename_i hcond
    split at h2
    · rename_i en heq
      refine step_mono_wrap mem asp a v _ e e' h1 h2 ?_
      intro e1 hb he1
      by_cases hvv : v = val
      · subst hvv
        rw [heq] at hb
        cases hb
        rw [alookup_aset_self] at he1
        cases he1
        exact le_refl _
      · rw [alookup_aset_ne _ _ _ _ hvv, hb] at he1
        cases he1
        exact le_refl _
    · exact hmem1case e' h2
  split at h2
  · -- merge branch
    split at h2
    · -- falsy target
      exact hmem1case e' h2
    · split at h2
      · -- target not found
        exact hmem1case e' h2
      · rename_i tE hT
        split at h2
        · -- value not found: only last_seen refresh on target
          rename_i hV
          refine step_mono_wrap mem asp a v _ e e' h1 h2 ?_
          intro e1 hb he1
          by_cases hvt : v = tgt
          · subst hvt
            rw [hT] at hb
            cases hb
            rw [alookup_aset_self] at he1
            cases he1
            exact le_refl _
          · rw [alookup_aset_ne _ _ _ _ hvt, hb] at he1
            cases he1
            exact le_refl _
        · -- value found: absorb
          rename_i vE hV
          by_cases hvt : val = tgt
          · -- self-merge: the ok sub-branch is impossible; error keeps other keys
            rw [← hvt] at h2 hT
            split at h2
            · rename_i t2 heq
              rw [alookup_aerase_self _ _
                (nodup_keysOf_aset _ _ _ (nodup_keysOf_aset _ _ _ hndb))] at heq
              cases heq
            · simp only [resultMem] at h2
              refine step_mono_wrap mem asp a v _ e e' h1 h2 ?_
              intro e1 hb he1
              by_cases hvv : v = val
              · subst hvv
                rw [alookup_aerase_self _ _
                  (nodup_keysOf_aset _ _ _ (nodup_keysOf_aset _ _ _ hndb))] at he1
                cases he1
              · rw [alookup_aerase_ne _ _ _ hvv, alookup_aset_ne _ _ _ _ hvv,
                  alookup_aset_ne _ _ _ _ hvv, hb] at he1
                cases he1
                exact le_refl _
          · -- distinct keys: absorption
            split at h2
            · rename_i t2 heq
              rw [alookup_aerase_ne _ _ _ (Ne.symm hvt), alookup_aset_self] at heq
              cases heq
              simp only [resultMem] at h2
              refine step_mono_wrap mem asp a v _ e e' h1 h2 ?_
              intro e1 hb he1
              by_cases hvtg : v = tgt
              · subst hvtg
                rw [alookup_aset_self] at he1
                cases he1
                rw [hT] at hb
                cases hb
                simp only [alookup_aset_self, Option.getD_some]
                rw [alookup_aset_ne _ _ _ _ hvt, hV]
                simp only [Option.getD_some]
                exact Nat.le_add_right _ _
              · rw [alookup_aset_ne _ _ _ _ hvtg] at he1
                by_cases hvv : v = val
                · subst hvv
                  rw [alookup_aerase_self _ _
                    (nodup_keysOf_aset _ _ _ (nodup_keysOf_aset _ _ _ hndb))] at he1
                  cases he1
                · rw [alookup_aerase_ne _ _ _ hvv, alookup_aset_ne _ _ _ _ hvtg,
                    alookup_aset_ne _ _ _ _ hvtg, hb] at he1
                  cases he1
                  exact le_refl _
            · rename_i heq
              rw [alookup_aerase_ne _ _ _ (Ne.symm hvt), alookup_aset_self] at heq
              cases heq
  · -- unrecognized tag
    exact hmem1case e' h2

section
attribute [local semireducible] Rat.ofScientific Rat.mul Rat.inv Rat.add Rat.sub

/-- Counterexample for C3 as stated: re-ingesting a known preference resets
its evidence from 2 to 1 — evidence is decremented by an operation of the
store. -/
theorem C3_counterexample :
    mlookup [("dietary", [("vegan", ⟨0.9, 2, 0⟩)])] "dietary" "vegan" = some ⟨0.9, 2, 0⟩ ∧
    ingest_extracted_preferences STRENGTH_TO_CONF 5
      [("dietary", [("vegan", ⟨0.9, 2, 0⟩)])] ⟨[⟨"dietary", "vegan", "strong"⟩], []⟩
      = .ok [("dietary", [("vegan", ⟨0.9, 1, 5⟩)])] ∧
    mlookup [("dietary", [("vegan", ⟨0.9, 1, 5⟩)])] "dietary" "vegan" = some ⟨0.9, 1, 5⟩ ∧
    ¬ ((2 : ℕ) ≤ 1) :=
  ⟨by decide, by decide, by decide, by decide⟩

/-- Witness for C3: a concrete reinforce step raises evidence from 1 to 2. -/
theorem C3_witness :
    (⟨0.6, 1, 0⟩ : Entry).evidence ≤ (⟨0.75, 2, 7⟩ : Entry).evidence :=
  C3_evidence_monotone ASPECTS STRENGTH_TO_CONF 7
    [("cuisine", [("italian", ⟨0.6, 1, 0⟩)])]
    ⟨some "reinforce", some "cuisine", some "italian", none, some "strong"⟩
    "cuisine" "italian" ⟨0.6, 1, 0⟩ ⟨0.75, 2, 7⟩
    (by unfold WfMem; decide) (by decide) (by decide)

end

/-! ### Ingestion overwrite (C7) -/

theorem ingestOne_eq (conf : StrengthMap) (now : ℕ) (mem : Memory) (p : PrefItem)
    (c : ℚ) (h : alookup conf p.strength = some c) :
    ingestOne conf now mem p = .ok (aset (asetdefault mem p.aspect []) p.aspect
      (aset ((alookup (asetdefault mem p.aspect []) p.aspect).getD [])
        (pyLower p.value) ⟨c, 1, now⟩)) := by
  simp only [ingestOne, h]

theorem mlookup_write (mem : Memory) (asp vl : String) (en : Entry) (a v : String) :
    mlookup (aset (asetdefault mem asp []) asp
      (aset ((alookup (asetdefault mem asp []) asp).getD []) vl en)) a v =
    if a = asp ∧ v = vl then some en else mlookup mem a v := by
  by_cases ha : a = asp
  · subst ha
    rw [mlookup_aset_eq]
    by_cases hv : v = vl
    · subst hv
      rw [alookup_aset_self, if_pos ⟨rfl, rfl⟩]
    · rw [alookup_aset_ne _ _ _ _ hv, if_neg (fun hc => hv hc.2)]
      exact (mlookup_asetdefault_nil mem a a v)
  · rw [mlookup_aset_ne _ _ _ _ _ ha, mlookup_asetdefault_nil,
      if_neg (fun hc => ha hc.1)]

theorem shape_aset (mem : Memory) (asp : String) (b nb : AspectMem)
    (hb : alookup mem asp = some b) (hk : keysOf nb = keysOf b) :
    shape (aset mem asp nb) = shape mem := by
  induction mem with
  | nil => simp [alookup] at hb
  | cons p t ih =>
    rw [aset_cons]
    rw [alookup_cons] at hb
    by_cases hp : p.1 = asp
    · rw [if_pos hp] at hb ⊢
      cases hb
      simp [shape, hk, hp]
    · rw [if_neg hp] at hb ⊢
      simp only [shape, List.map_cons]
      rw [show List.map (fun q => (q.1, keysOf q.2)) (aset t asp nb)
        = shape (aset t asp nb) from rfl,
        show List.map (fun q => (q.1, keysOf q.2)) t = shape t from rfl, ih hb]

theorem shape_write_present (mem : Memory) (asp vl : String) (en : Entry)
    (h : (mlookup mem asp vl).isSome) :
    shape (aset (asetdefault mem asp []) asp
      (aset ((alookup (asetdefault mem asp []) asp).getD []) vl en)) = shape mem := by
  obtain ⟨e0, he0⟩ := Option.isSome_iff_exists.mp h
  obtain ⟨b, hb, hbe⟩ := mlookup_eq_some _ _ _ _ he0
  rw [asetdefault_of_isSome _ _ _ (by simp [hb]), hb]
  simp only [Option.getD_some]
  exact shape_aset mem asp b _ hb
    (keysOf_aset_present _ _ _ (by simp [hbe]))

theorem lastWrite_mem (p : List PrefItem) (i : PrefItem) (h : i ∈ p) :
    (lastWrite p i.aspect (pyLower i.value)).isSome := by
  induction p with
  | nil => cases h
  | cons j rest ih =>
    simp only [lastWrite]
    cases hlw : lastWrite rest i.aspect (pyLower i.value) with
    | some s => simp
    | none =>
      rcases List.mem_cons.mp h with hj | hr
      · subst hj
        rw [if_pos ⟨rfl, rfl⟩]
        simp
      · have := ih hr
        rw [hlw] at this
        simp at this

theorem ingestList_lookup (conf : StrengthMap) (now : ℕ) (p : List PrefItem) :
    ∀ (mem m2 : Memory), ingestList conf now mem p = .ok m2 → ∀ a v,
    (∀ s, lastWrite p a v = some s →
      ∃ c, alookup conf s = some c ∧ mlookup m2 a v = some ⟨c, 1, now⟩) ∧
    (lastWrite p a v = none → mlookup m2 a v = mlookup mem a v) := by
  induction p with
  | nil =>
    intro mem m2 h a v
    cases h
    refine ⟨fun s hs => ?_, fun _ => rfl⟩
    cases hs
  | cons i rest ih =>
    intro mem m2 h a v
    cases hc : alookup conf i.strength with
    | none =>
      rw [ingestList] at h
      simp only [ingestOne, hc] at h
      exact Except.noConfusion h
    | some c =>
      rw [ingestList, ingestOne_eq conf now mem i c hc] at h
      constructor
      · intro s hs
        simp only [lastWrite] at hs
        cases hlw : lastWrite rest a v with
        | some s2 =>
          rw [hlw] at hs
          cases hs
          exact (ih _ m2 h a v).1 s hlw
        | none =>
          rw [hlw] at hs
          by_cases hm : i.aspect = a ∧ pyLower i.value = v
          · rw [if_pos hm] at hs
            cases hs
            have h2 := (ih _ m2 h a v).2 hlw
            rw [h2, mlookup_write, if_pos ⟨hm.1.symm, hm.2.symm⟩]
            exact ⟨c, hc, rfl⟩
          · rw [if_neg hm] at hs
            cases hs
      · intro hn
        simp only [lastWrite] at hn
        cases hlw : lastWrite rest a v with
        | some s2 =>
          rw [hlw] at hn
          cases hn
        | none =>
          rw [hlw] at hn
          have hm : ¬(i.aspect = a ∧ pyLower i.value = v) := by
            intro hm
            rw [if_pos hm] at hn
            cases hn
          have h2 := (ih _ m2 h a v).2 hlw
          rw [h2, mlookup_write, if_neg (fun hc2 => hm ⟨hc2.1.symm, hc2.2.symm⟩)]

theorem ingestList_present (conf : StrengthMap) (now : ℕ) (p : List PrefItem)
    (mem m2 : Memory) (h : ingestList conf now mem p = .ok m2)
    (i : PrefItem) (hi : i ∈ p) :
    (mlookup m2 i.aspect (pyLower i.value)).isSome := by
  obtain ⟨s, hs⟩ := Option.isSome_iff_exists.mp (lastWrite_mem p i hi)
  obtain ⟨c, _, hm⟩ := (ingestList_lookup conf now p mem m2 h i.aspect (pyLower i.value)).1 s hs
  simp [hm]

theorem ingestList_shape (conf : StrengthMap) (now : ℕ) (p : List PrefItem) :
    ∀ (mem m2 : Memory), ingestList conf now mem p = .ok m2 →
    (∀ i ∈ p, (mlookup mem i.aspect (pyLower i.value)).isSome) →
    shape m2 = shape mem := by
  induction p with
  | nil =>
    intro mem m2 h _
    cases h
    rfl
  | cons i rest ih =>
    intro mem m2 h hpres
    cases hc : alookup conf i.strength with
    | none =>
      rw [ingestList] at h
      simp only [ingestOne, hc] at h
      exact Except.noConfusion h
    | some c =>
      rw [ingestList, ingestOne_eq conf now mem i c hc] at h
      have hw : shape (aset (asetdefault mem i.aspect []) i.aspect
          (aset ((alookup (asetdefault mem i.aspect []) i.aspect).getD [])
            (pyLower i.value) ⟨c, 1, now⟩)) = shape mem :=
        shape_write_present mem i.aspect (pyLower i.value) _
          (hpres i (List.mem_cons_self i rest))
      have hpres2 : ∀ j ∈ rest, (mlookup (aset (asetdefault mem i.aspect []) i.aspect
          (aset ((alookup (asetdefault mem i.aspect []) i.aspect).getD [])
            (pyLower i.value) ⟨c, 1, now⟩)) j.aspect (pyLower j.value)).isSome := by
        intro j hj
        rw [mlookup_write]
        by_cases hm : j.aspect = i.aspect ∧ pyLower j.value = pyLower i.value
        · rw [if_pos hm]
          simp
        · rw [if_neg hm]
          exact hpres j (List.mem_cons_of_mem _ hj)
      rw [ih _ m2 h hpres2, hw]

theorem ingestList_append (conf : StrengthMap) (now : ℕ) (p q : List PrefItem) :
    ∀ mem : Memory, ingestList conf now mem (p ++ q) =
      match ingestList conf now mem p with
      | .ok m2 => ingestList conf now m2 q
      | .error m2 => .error m2 := by
  induction p with
  | nil => intro mem; rfl
  | cons i rest ih =>
    intro mem
    simp only [List.cons_append, ingestList]
    cases ingestOne conf now mem i with
    | ok m2 => exact ih m2
    | error m2 => rfl

theorem ingest_eq_ingestList (conf : StrengthMap) (now : ℕ) (mem : Memory)
    (ex : Extracted) :
    ingest_extracted_preferences conf now mem ex =
      ingestList conf now mem (itemsOf ex) := by
  unfold ingest_extracted_preferences itemsOf
  rw [ingestList_append]

/-- C7: ingesting the same payload twice in a row leaves every affected
(aspect, lower-cased value) entry at evidence 1 with the same confidence
after each call, and the second call changes neither the key structure nor
any entry the payload does not write. -/
theorem C7_ingestion_overwrite (conf : StrengthMap) (now1 now2 : ℕ) (mem : Memory)
    (ex : Extracted) (m1 m2 : Memory)
    (h1 : ingest_extracted_preferences conf now1 mem ex = .ok m1)
    (h2 : ingest_extracted_preferences conf now2 m1 ex = .ok m2) :
    (∀ i ∈ itemsOf ex, ∃ c,
      mlookup m1 i.aspect (pyLower i.value) = some ⟨c, 1, now1⟩ ∧
      mlookup m2 i.aspect (pyLower i.value) = some ⟨c, 1, now2⟩) ∧
    shape m2 = shape m1 ∧
    (∀ a v, lastWrite (itemsOf ex) a v = none → mlookup m2 a v = mlookup m1 a v) := by
  rw [ingest_eq_ingestList] at h1 h2
  refine ⟨?_, ?_, ?_⟩
  · intro i hi
    obtain ⟨s, hs⟩ := Option.isSome_iff_exists.mp (lastWrite_mem (itemsOf ex) i hi)
    obtain ⟨c, hc, hm1⟩ :=
      (ingestList_lookup conf now1 (itemsOf ex) mem m1 h1 i.aspect (pyLower i.value)).1 s hs
    obtain ⟨c2, hc2, hm2⟩ :=
      (ingestList_lookup conf now2 (itemsOf ex) m1 m2 h2 i.aspect (pyLower i.value)).1 s hs
    rw [hc] at hc2
    cases hc2
    exact ⟨c, hm1, hm2⟩
  · exact ingestList_shape conf now2 (itemsOf ex) m1 m2 h2
      (fun i hi => ingestList_present conf now1 (itemsOf ex) mem m1 h1 i hi)
  · intro a v hn
    exact (ingestList_lookup conf now2 (itemsOf ex) m1 m2 h2 a v).2 hn

section
attribute [local semireducible] Rat.ofScientific Rat.mul Rat.inv Rat.add Rat.sub

/-- Witness for C7: double ingestion of one `strong` item yields evidence 1
both times with the same confidence. -/
theorem C7_witness :
    ∃ c, mlookup [("cuisine", [("italian", ⟨0.9, 1, 1⟩)])]
        "cuisine" (pyLower "Italian") = some ⟨c, 1, 1⟩ ∧
      mlookup [("cuisine", [("italian", ⟨0.9, 1, 2⟩)])]
        "cuisine" (pyLower "Italian") = some ⟨c, 1, 2⟩ :=
  (C7_ingestion_overwrite STRENGTH_TO_CONF 1 2 []
    ⟨[⟨"cuisine", "Italian", "strong"⟩], []⟩
    [("cuisine", [("italian", ⟨0.9, 1, 1⟩)])]
    [("cuisine", [("italian", ⟨0.9, 1, 2⟩)])]
    (by decide) (by decide)).1 ⟨"cuisine", "Italian", "strong"⟩ (by decide)

end
